import Mathlib

set_option maxRecDepth 8000

/-!
Verification development for the bookmark-resolution and PDF-splitting core of
colin4k/gemini-pdf-translator (`src/get_pdf_bookmark.py`, `src/split_pdf.py`).

The embedding is shallow: Python strings are `List Char`, Python `None` is
`Option.none` (or the `PyVal.pyNone` constructor where a dict field can hold
several runtime types), Python ints are `Int` (unbounded, as in Python), and
fallible operations of the document-access layer (PyPDF2) are modelled with
`Except Unit`.  Every definition follows the corresponding source function;
line references are given in the doc comments.
-/

namespace Pdf

/-! ## String helpers for `is_child_bookmark` (get_pdf_bookmark.py lines 161-176)

The source uses `re` regexes on titles.  The regexes involved are
`^\d+(\.\d+)*\s`, `^\d+(\.\d+)+\s`, `^\d+(\.\d+)*`, `^\d+(\.\d+)+`, `\.`
(via `re.findall`) and `\d+` only; we embed each of them directly as a
deterministic scanner over `List Char` (ASCII model of `\d` and `\s`). -/

/-- Python `\s` on the ASCII range: space, tab, newline, carriage return,
vertical tab, form feed. -/
def pyIsSpace (c : Char) : Bool :=
  c == ' ' || c == '\t' || c == '\n' || c == '\r' || c == '\x0b' || c == '\x0c'

/-- Split a string into its maximal leading digit run and the remainder
(the `\d+` step of the regexes, ASCII digits). -/
def spanDigits : List Char → List Char × List Char
  | [] => ([], [])
  | c :: cs =>
    if c.isDigit then
      let p := spanDigits cs
      (c :: p.1, p.2)
    else ([], c :: cs)

/-- Greedy scanner for `(\.\d+)*`: repeatedly consume a dot followed by a
nonempty digit run.  Fuel-indexed (fuel = remaining string length suffices,
each step consumes at least two characters) so the definition is structural
and kernel-reducible. -/
def dotSegsF : Nat → List Char → List Char × List Char
  | 0, cs => ([], cs)
  | _ + 1, [] => ([], [])
  | fuel + 1, c :: cs =>
    if c == '.' then
      match spanDigits cs with
      | ([], _) => ([], c :: cs)
      | (d :: ds, rest) =>
        let p := dotSegsF fuel rest
        (c :: ((d :: ds) ++ p.1), p.2)
    else ([], c :: cs)

/-- Greedy `(\.\d+)*` with the fuel instantiated. -/
def dotSegs (cs : List Char) : List Char × List Char :=
  dotSegsF cs.length cs

/-- Maximal (greedy) match of `^\d+(\.\d+)*` together with the unconsumed
remainder; `none` when the string does not start with a digit.  A greedy
regex match of this pattern is exactly the maximal dotted numeric prefix. -/
def numHead (l : List Char) : Option (List Char × List Char) :=
  match spanDigits l with
  | ([], _) => none
  | (d :: ds, rest) =>
    let p := dotSegs rest
    some ((d :: ds) ++ p.1, p.2)

/-- `re.match(r'^\d+(\.\d+)*\s', s)` as a Bool.  With backtracking, the only
viable cut is the maximal dotted prefix: cutting a digit run short leaves a
digit as the next character and cutting at an inner segment boundary leaves a
dot, neither of which matches `\s`.  So the pattern matches iff the maximal
prefix is nonempty and is immediately followed by a whitespace character. -/
def matchNumSpace (l : List Char) : Bool :=
  match numHead l with
  | some (_, c :: _) => pyIsSpace c
  | _ => false

/-- `re.match(r'^\d+(\.\d+)+\s', s)` as a Bool: same as `matchNumSpace` but
the prefix must contain at least one dot segment. -/
def matchNumDotSpace (l : List Char) : Bool :=
  match numHead l with
  | some (p, c :: _) => p.contains '.' && pyIsSpace c
  | _ => false

/-- `re.match(r'^\d+(\.\d+)*', s).group(0)` (used at lines 165-166 after the
corresponding `\s`-terminated match succeeded, so the prefix is nonempty);
total with `[]` as the out-of-contract value. -/
def numPart (l : List Char) : List Char :=
  match numHead l with
  | some (p, _) => p
  | none => []

/-- `len(re.findall(r'\.', s))`: number of dots in the whole title
(the source counts dots in the entire string, not only in the prefix). -/
def countDots (l : List Char) : Nat :=
  l.count '.'

/-- `s.split(' ')[0]`: the characters before the first space
(the whole string if there is no space, `[]` if it starts with a space). -/
def firstTok (l : List Char) : List Char :=
  l.takeWhile (fun c => !(c == ' '))

/-- `is_child_bookmark(title, parent_title)` (get_pdf_bookmark.py lines
161-176).  Rule 1 (lines 164-168): both titles start with dotted numeric
prefixes (parent's may be dotless, child's must contain a dot), each followed
by whitespace, and the child's prefix starts with the parent's prefix plus a
dot.  Rule 2 (lines 171-174): the dot count of the whole child title is
exactly one more than that of the whole parent title and the child title
starts with the parent's first space-delimited token. -/
def is_child_bookmark (title parent_title : List Char) : Bool :=
  (if matchNumSpace parent_title && matchNumDotSpace title then
     (numPart parent_title ++ ['.']).isPrefixOf (numPart title)
   else false)
  ||
  ((countDots parent_title + 1 + 1 == countDots title + 1)
      && (firstTok parent_title).isPrefixOf title)

/-! ## Bookmarks, level inference and the inference trigger
(get_pdf_bookmark.py lines 178-206 and 276-279) -/

/-- A flattened bookmark record `{'title': ..., 'page': ..., 'level': ...}`
as produced by `flatten_bookmarks`. -/
structure Bookmark where
  title : List Char
  page : Option Int
  level : Nat
deriving DecidableEq, Repr

/-- Level assigned to a new entry given the already-processed entries `acc`
in document order: the first earlier entry whose title makes the new title a
child contributes its (already inferred) level plus one; otherwise 0
(lines 184-199: the first pass initialises levels to 0, the second pass
scans `j < i` in order and breaks at the first match). -/
def inferLevel (acc : List Bookmark) (title : List Char) : Nat :=
  match acc.find? (fun a => is_child_bookmark title a.title) with
  | some a => a.level + 1
  | none => 0

/-- The record emitted for input `b` given the already-emitted records
`acc`: title and page are copied, the level is inferred. -/
def inferNext (acc : List Bookmark) (b : Bookmark) : Bookmark :=
  ⟨b.title, b.page, inferLevel acc b.title⟩

/-- Loop of `infer_bookmark_level`: entries are appended one at a time, each
with the level computed from the entries already emitted. -/
def inferAux (acc : List Bookmark) : List Bookmark → List Bookmark
  | [] => acc
  | b :: rest => inferAux (acc ++ [inferNext acc b]) rest

/-- `infer_bookmark_level(bookmarks)` (lines 178-206).  Titles and pages are
copied, levels are recomputed from scratch (the first pass sets every level
to 0; the helper `original_index` field is created and deleted again and is
not modelled). -/
def infer_bookmark_level (bms : List Bookmark) : List Bookmark :=
  inferAux [] bms

/-- The conditional invocation of the inferencer inside `extract_bookmarks`
(lines 276-279): only when every flattened bookmark has level 0 and there is
more than one bookmark. -/
def maybeInferLevels (bms : List Bookmark) : List Bookmark :=
  if bms.all (fun b => b.level == 0) && decide (1 < bms.length) then
    infer_bookmark_level bms
  else bms

/-! ## Destination resolution (get_pdf_bookmark.py lines 98-159)

The source probes a duck-typed PyPDF2 object.  We embed the probe outcomes as
a closed inductive: each constructor records which of the mutually exclusive
branch conditions of the source holds, together with the data that branch
reads.  Fallible document-access operations carry an `Except Unit` (a raised
exception) where the source wraps them in `try`. -/

/-- One entry of `pdf_reader.pages`: the identity of `page.indirect_reference`
(modelled as a token compared with `==`) and its optional `idnum`. -/
structure PageT where
  ref : Nat
  idnum : Option Nat
deriving DecidableEq, Repr

/-- Result of `page_ref.get_object()` (lines 121-128): a dict carrying
`/StructParents`, some other object, or a raised exception. -/
inductive GetObjR where
  | structParents (sp : Int)
  | other
  | raises
deriving DecidableEq, Repr

/-- The first element of a `/D` destination array (lines 108-128): identity
token, optional `idnum`, and the optional `get_object` operation. -/
structure PageRefT where
  ref : Nat
  idnum : Option Nat
  getObj : Option GetObjR
deriving DecidableEq, Repr

/-- A raw outline entry as probed by `get_bookmark_page`, one constructor per
branch of the source's attribute probing:
`attrPage` = `hasattr(bookmark, 'page')` (the attribute value is returned
verbatim, line 102); `pageEntry` = `'/Page' in bookmark`, carrying the
fallible 0-based `get_destination_page_number` result (line 104); `dEntry` =
`'/D' in bookmark`, carrying the first element of the destination array
(`none` when the array is empty or not a list, lines 105-128); `indirectRef`
= the bookmark is itself an `IndirectObject` (lines 131-154); `plainDict` =
none of the probes succeed (line 156). -/
inductive RawBm where
  | attrPage (p : Int)
  | pageEntry (r : Except Unit Nat)
  | dEntry (d : Option PageRefT)
  | indirectRef (ref : Nat) (idnum : Option Nat)
  | plainDict

/-- `get_bookmark_page(bookmark, pdf_reader)` (lines 98-159).  The whole body
is wrapped in `try ... except: return None`, so a raised
`get_destination_page_number` becomes `none`; the `get_object` probe has its
own local handler (line 127) and simply falls through to `return None`.  In
the `/D` branch, the idnum scan and the `get_object` attempt are both guarded
by `hasattr(page_ref, 'idnum')` (line 116); in the `IndirectObject` branch
the idnum scan and the final estimate are likewise guarded by
`hasattr(bookmark, 'idnum')` (lines 141, 150).  The estimate (line 152) is
`min(bookmark.idnum // 2, len(pdf_reader.pages))`. -/
def get_bookmark_page (bm : RawBm) (pages : List PageT) : Option Int :=
  match bm with
  | .attrPage p => some p
  | .pageEntry (.ok n) => some ((n : Int) + 1)
  | .pageEntry (.error _) => none
  | .dEntry none => none
  | .dEntry (some pr) =>
    match pages.findIdx? (fun p => p.ref == pr.ref) with
    | some i => some ((i : Int) + 1)
    | none =>
      match pr.idnum with
      | none => none
      | some idn =>
        match pages.findIdx? (fun p => p.idnum == some idn) with
        | some i => some ((i : Int) + 1)
        | none =>
          match pr.getObj with
          | some (.structParents sp) => some (sp + 1)
          | _ => none
  | .indirectRef ref idnum =>
    match pages.findIdx? (fun p => p.ref == ref) with
    | some i => some ((i : Int) + 1)
    | none =>
      match idnum with
      | none => none
      | some idn =>
        match pages.findIdx? (fun p => p.idnum == some idn) with
        | some i => some ((i : Int) + 1)
        | none => some ((min (idn / 2) pages.length : Nat) : Int)
  | .plainDict => none

/-! ## Outline flattening (get_pdf_bookmark.py lines 208-257) -/

mutual
/-- The outline structure walked by `flatten_bookmarks`: either a single
bookmark object (optional `title` attribute, destination data, and the list
returned by `get_bookmark_children`) or a nested Python list of entries.
A mutual inductive keeps all recursion structural. -/
inductive Outline where
  | node (title : Option (List Char)) (dest : RawBm) (children : OutlineList)
  | group (items : OutlineList)

/-- A Python list of outline entries. -/
inductive OutlineList where
  | nil
  | cons (o : Outline) (os : OutlineList)
end

/-- `get_bookmark_title` default (line 96): `"无标题"` when the object has no
`title` attribute. -/
def defaultTitle : List Char := "无标题".data

mutual
/-- `flatten_bookmarks(bookmarks, pdf_reader, level)` on a single entry
(lines 223-257): a Python list is flattened at the *same* level (lines
233-236); a bookmark object contributes one record at the incoming level and
its children are flattened at `level + 1` (lines 239-255). -/
def flatten_bookmarks (pages : List PageT) (level : Nat) : Outline → List Bookmark
  | .node t dest cs =>
    ⟨t.getD defaultTitle, get_bookmark_page dest pages, level⟩
      :: flattenList pages (level + 1) cs
  | .group items => flattenList pages level items

/-- `flatten_bookmarks` mapped over a Python list of entries (lines 233-236):
each element is processed at the same incoming level and the results are
concatenated in order. -/
def flattenList (pages : List PageT) (level : Nat) : OutlineList → List Bookmark
  | .nil => []
  | .cons o os => flatten_bookmarks pages level o ++ flattenList pages level os
end

mutual
/-- Number of bookmark objects (`node`s) in an outline. -/
def nodeCount : Outline → Nat
  | .node _ _ cs => 1 + nodeCountL cs
  | .group items => nodeCountL items

/-- Number of bookmark objects in a list of outline entries. -/
def nodeCountL : OutlineList → Nat
  | .nil => 0
  | .cons o os => nodeCount o + nodeCountL os
end

mutual
/-- Every bookmark object in the outline has an empty `children` list, i.e.
nesting (if any) is encoded purely through nested sibling lists. -/
def leafOnly : Outline → Bool
  | .node _ _ cs =>
    match cs with
    | .nil => true
    | .cons _ _ => false
  | .group items => leafOnlyL items

/-- `leafOnly` for a list of outline entries. -/
def leafOnlyL : OutlineList → Bool
  | .nil => true
  | .cons o os => leafOnly o && leafOnlyL os
end

/-! ## The range planner (split_pdf.py lines 28-93 and 95-189)

Planner bookmarks are dicts whose `'page'` value can hold several runtime
types; we model the value universe reachable in this embedding with `PyVal`
(`int`, `str`, `None`).  `convert_to_page_number`'s `IndirectObject` branches
(lines 46-82) concern PyPDF2 wrapper objects that do not occur among these
values and are therefore not reachable in the model. -/

/-- A Python value stored in a bookmark dict's `'page'` slot. -/
inductive PyVal where
  | pyNone
  | pyInt (n : Int)
  | pyStr (s : List Char)
deriving DecidableEq, Repr

/-- Value of a digit string (most significant first). -/
def digitsToNat (l : List Char) : Nat :=
  l.foldl (fun a c => a * 10 + (c.toNat - 48)) 0

/-- Python `int(s)` on a string: optional surrounding whitespace, an optional
sign, then a nonempty run of digits consuming the rest of the string;
`none` models the raised `ValueError`. -/
def pyIntOfString (s : List Char) : Option Int :=
  let core := (s.dropWhile pyIsSpace).reverse.dropWhile pyIsSpace |>.reverse
  match core with
  | '-' :: ds => if ds ≠ [] && ds.all Char.isDigit then some (-(digitsToNat ds : Int)) else none
  | '+' :: ds => if ds ≠ [] && ds.all Char.isDigit then some ((digitsToNat ds : Int)) else none
  | ds => if ds ≠ [] && ds.all Char.isDigit then some ((digitsToNat ds : Int)) else none

/-- First match of `re.findall(r'\d+', s)`: the value of the first maximal
digit run, if any. -/
def firstNum : List Char → Option Nat
  | [] => none
  | c :: cs =>
    if c.isDigit then some (digitsToNat ((c :: cs).takeWhile Char.isDigit))
    else firstNum cs

/-- `convert_to_page_number(page_obj, pdf_reader)` (split_pdf.py lines 28-93)
restricted to the `PyVal` universe.  An int is returned unchanged (line 33);
a string is converted with `int()` and otherwise yields its first embedded
number (lines 36-43; the later `str(page_obj)` retry at lines 85-88 re-scans
the same characters and adds nothing); `None` reaches the final
`str(page_obj)` fallback, and `str(None) = "None"` contains no digits, so
the function returns `None` (line 93). -/
def convert_to_page_number : PyVal → Option Int
  | .pyInt n => some n
  | .pyStr s =>
    (match pyIntOfString s with
     | some n => some n
     | none => (firstNum s).map (fun n => (n : Int)))
  | .pyNone => none

/-- A bookmark dict as consumed by `get_page_ranges`. -/
structure PBookmark where
  title : List Char
  page : PyVal
  level : Int
deriving DecidableEq, Repr

/-- A split range `{'title': ..., 'start': ..., 'end': ...}` (0-based,
inclusive); the `end` key is named `stop` because `end` is a Lean keyword. -/
structure PRange where
  title : List Char
  start : Int
  stop : Int
deriving DecidableEq, Repr

/-- The int stored in a converted bookmark's page slot (only applied to
entries that passed the `isinstance(b['page'], int)` filter; 0 is the
out-of-contract value). -/
def pageKey (b : PBookmark) : Int :=
  match b.page with
  | .pyInt n => n
  | _ => 0

/-- Filter of line 131: `isinstance(b['page'], int) and b['page'] > 0`. -/
def validPage (b : PBookmark) : Bool :=
  match b.page with
  | .pyInt n => decide (0 < n)
  | _ => false

/-- The page-conversion write-back of lines 117-128: the `'page'` slot is
overwritten with the converted number, or with `None` when conversion fails
or the slot already held `None` (both assignment branches agree with this
because `convert_to_page_number` maps `None` to `None`). -/
def convStep (b : PBookmark) : PBookmark :=
  { b with page := match convert_to_page_number b.page with
                   | some n => .pyInt n
                   | none => .pyNone }

/-- Stable insertion: `x` goes after every element whose key is `≤` its own,
which preserves document order among equal keys. -/
def insertK (key : α → Int) (x : α) : List α → List α
  | [] => [x]
  | y :: ys => if key y ≤ key x then y :: insertK key x ys else x :: y :: ys

/-- `list.sort(key=...)` (line 138): Python's sort is stable; this stable
insertion sort is proved below to sort by the key and to preserve the
relative order of equal keys, which characterises the source's sort. -/
def sortByKey (key : α → Int) (l : List α) : List α :=
  l.foldl (fun acc x => insertK key x acc) []

/-- The range-construction loop of lines 141-159: entry `i` yields
`start = page_i - 1` and `end = page_(i+1) - 2` when a following entry
exists, else `total_pages - 1`; a range with `end < start` is dropped
(warning only, no repair). -/
def mkRanges (total : Int) : List PBookmark → List PRange
  | [] => []
  | [b] =>
    if pageKey b - 1 ≤ total - 1 then [⟨b.title, pageKey b - 1, total - 1⟩] else []
  | b :: b2 :: rest =>
    (if pageKey b - 1 ≤ pageKey b2 - 2 then
       [⟨b.title, pageKey b - 1, pageKey b2 - 2⟩]
     else []) ++ mkRanges total (b2 :: rest)

/-- Title `'前言部分'` of the synthetic front-matter range (line 169). -/
def frontTitle : List Char := "前言部分".data

/-- Title `'附录部分'` of the synthetic back-matter range (line 177). -/
def backTitle : List Char := "附录部分".data

/-- Title `'完整文档'` of the whole-document fallback range (line 184). -/
def fullTitle : List Char := "完整文档".data

/-- Coverage completion of lines 161-187: with no surviving range the whole
document becomes one range; otherwise a front range is prepended when the
first range does not start at page 0 and a back range is appended when the
last range (`last_range` is captured before the front insertion, which does
not change the last element) does not reach the last page. -/
def addCover (total : Int) : List PRange → List PRange
  | [] => [⟨fullTitle, 0, total - 1⟩]
  | first :: rest =>
    let lastR := rest.getLastD first
    let rs1 :=
      if 0 < first.start then ⟨frontTitle, 0, first.start - 1⟩ :: first :: rest
      else first :: rest
    if lastR.stop < total - 1 then rs1 ++ [⟨backTitle, lastR.stop + 1, total - 1⟩]
    else rs1

/-- The level-filtered, converted and validity-filtered bookmark list of
lines 109, 117-128 and 131. -/
def validBookmarks (bms : List PBookmark) (lvl : Int) : List PBookmark :=
  ((bms.filter (fun b => b.level == lvl)).map convStep).filter validPage

/-- The caller-visible state of the bookmark list after `get_page_ranges`:
`level_bookmarks` aliases the dicts of the input list, so the write-back of
lines 117-128 is visible through the input; entries at other levels are
untouched. -/
def postState (bms : List PBookmark) (lvl : Int) : List PBookmark :=
  bms.map (fun b => if b.level == lvl then convStep b else b)

/-- `get_page_ranges(bookmarks, total_pages, split_level, pdf_reader)`
(lines 95-189), returning the ranges together with the state of the input
list observed by the caller afterwards.  The first early return (line 114)
happens before any write-back; the second (line 135) happens after it. -/
def get_page_ranges (bms : List PBookmark) (total : Int) (lvl : Int) :
    List PRange × List PBookmark :=
  if (bms.filter (fun b => b.level == lvl)).isEmpty then ([], bms)
  else if (validBookmarks bms lvl).isEmpty then ([], postState bms lvl)
  else
    (addCover total (mkRanges total (sortByKey pageKey (validBookmarks bms lvl))),
     postState bms lvl)

/-- Index-free form of the spec's step 4 description: the candidate range of
entry `i` before the degeneracy filter. -/
def specCandidates (total : Int) : List PBookmark → List PRange
  | [] => []
  | b :: rest =>
    ⟨b.title, pageKey b - 1,
      match rest with
      | [] => total - 1
      | b2 :: _ => pageKey b2 - 2⟩ :: specCandidates total rest

/-- The hypothesis under which claim C1 is provable: every page value that
survives conversion as a positive integer is at most `total`. -/
def pageWithin (total : Int) (b : PBookmark) : Bool :=
  match convert_to_page_number b.page with
  | some n => !(decide (0 < n)) || decide (n ≤ total)
  | none => true

/-- Out-of-contract default range. -/
def dummyR : PRange := ⟨[], 0, 0⟩

/-- The page slot already holds an `int` or `None` (the only values under
which the write-back of lines 117-128 stores back exactly what it read). -/
def intOrNone : PyVal → Bool
  | .pyInt _ => true
  | .pyNone => true
  | .pyStr _ => false

end Pdf

namespace Pdf

/-! ## Helper lemmas about `inferAux` -/

/-- `inferAux` only appends to its accumulator. -/
theorem inferAux_append (rest : List Bookmark) :
    ∀ acc : List Bookmark, ∃ t, inferAux acc rest = acc ++ t := by
  induction rest with
  | nil => intro acc; exact ⟨[], by simp [inferAux]⟩
  | cons b r ih =>
    intro acc
    obtain ⟨t, ht⟩ := ih (acc ++ [inferNext acc b])
    refine ⟨inferNext acc b :: t, ?_⟩
    simp [inferAux, ht]

/-- `inferAux` emits exactly one record per input record. -/
theorem inferAux_length (rest : List Bookmark) :
    ∀ acc : List Bookmark, (inferAux acc rest).length = acc.length + rest.length := by
  induction rest with
  | nil => intro acc; simp [inferAux]
  | cons b r ih =>
    intro acc
    simp [inferAux, ih]
    omega

/-- `inferAux` preserves titles and pages. -/
theorem inferAux_map (rest : List Bookmark) :
    ∀ acc : List Bookmark,
      (inferAux acc rest).map (fun b => (b.title, b.page)) =
        acc.map (fun b => (b.title, b.page)) ++ rest.map (fun b => (b.title, b.page)) := by
  induction rest with
  | nil => intro acc; simp [inferAux]
  | cons b r ih =>
    intro acc
    simp [inferAux, ih, inferNext]

/-- Elementwise characterisation of `inferAux`: the record emitted for the
`i`-th remaining input carries that input's title and page, and the level
computed by `inferLevel` from all previously emitted records. -/
theorem inferAux_getD (d : Bookmark) (rest : List Bookmark) :
    ∀ (acc : List Bookmark) (i : Nat), i < rest.length →
      (inferAux acc rest).getD (acc.length + i) d =
        ⟨(rest.getD i d).title, (rest.getD i d).page,
          inferLevel ((inferAux acc rest).take (acc.length + i)) (rest.getD i d).title⟩ := by
  induction rest with
  | nil => intro acc i hi; simp at hi
  | cons b r ih =>
    intro acc i hi
    match i with
    | 0 =>
      obtain ⟨t, ht⟩ := inferAux_append r (acc ++ [inferNext acc b])
      have hform : inferAux acc (b :: r) = acc ++ inferNext acc b :: t := by
        simp [inferAux, ht]
      rw [hform]
      have hgd : (acc ++ inferNext acc b :: t).getD (acc.length + 0) d =
          inferNext acc b := by
        rw [List.getD_append_right _ _ _ _ (by omega)]
        simp
      have htk : (acc ++ inferNext acc b :: t).take (acc.length + 0) = acc := by
        simpa using List.take_left acc (inferNext acc b :: t)
      rw [hgd, htk]
      simp [inferNext]
    | j + 1 =>
      have hj : j < r.length := by
        have := hi
        simp at this
        omega
      have hstep : inferAux acc (b :: r) = inferAux (acc ++ [inferNext acc b]) r := by
        simp [inferAux]
      have hidx : acc.length + (j + 1) = (acc ++ [inferNext acc b]).length + j := by
        simp
        omega
      rw [hstep, hidx]
      have := ih (acc ++ [inferNext acc b]) j hj
      simpa using this

/-! ## Claims C2, C7, C8 -/

/-- Claim C2 counterexample: the claim asserts that
`is_child("1.1.1 X", "1 Overview")` is false (skip-level mismatch), but the
source only checks `child_prefix.startswith(parent_prefix + '.')`, which is
satisfied by a prefix extended by two dot segments, so the call returns
true. -/
theorem c2_counterexample :
    is_child_bookmark "1.1.1 X".data "1 Overview".data = true := by decide

/-- Claim C2 (amended): `is_child_bookmark` implements the dotted-numeric
rule with extension by one or more dot segments — whenever both titles start
with dotted numeric prefixes followed by whitespace and the child's prefix
starts with the parent's prefix plus a dot, it returns true; in particular
`is_child("1.1 Background", "1 Overview")` is true,
`is_child("2 Overview", "1 Overview")` is false, and
`is_child("1.1.1 X", "1 Overview")` is true (skip-level prefixes are
accepted). -/
theorem c2_thm :
    (∀ title parent_title : List Char,
        matchNumSpace parent_title = true →
        matchNumDotSpace title = true →
        (numPart parent_title ++ ['.']).isPrefixOf (numPart title) = true →
        is_child_bookmark title parent_title = true) ∧
    is_child_bookmark "1.1 Background".data "1 Overview".data = true ∧
    is_child_bookmark "2 Overview".data "1 Overview".data = false ∧
    is_child_bookmark "1.1.1 X".data "1 Overview".data = true := by
  refine ⟨?_, by decide, by decide, by decide⟩
  intro title parent_title h1 h2 h3
  unfold is_child_bookmark
  simp [h1, h2, h3]

/-- Witness for C2: the general rule applied at a concrete input. -/
theorem c2_witness :
    (matchNumSpace "2 Overview".data = true ∧
      matchNumDotSpace "2.1 Background".data = true ∧
      (numPart "2 Overview".data ++ ['.']).isPrefixOf
        (numPart "2.1 Background".data) = true) ∧
    is_child_bookmark "2.1 Background".data "2 Overview".data = true :=
  ⟨⟨by decide, by decide, by decide⟩,
    c2_thm.1 "2.1 Background".data "2 Overview".data (by decide) (by decide) (by decide)⟩

/-- Claim C7: hierarchy inference processes entries in document order; entry
`i` keeps its title and page, and its level is `level_j + 1` for the first
earlier entry `j` whose title makes entry `i` a child (the already-inferred
level of `j`, first match wins via `find?`), and 0 when no earlier entry
matches. -/
theorem c7_thm (bms : List Bookmark) :
    (infer_bookmark_level bms).length = bms.length ∧
    ∀ i : Nat, i < bms.length →
      (infer_bookmark_level bms).getD i ⟨[], none, 0⟩ =
        ⟨(bms.getD i ⟨[], none, 0⟩).title, (bms.getD i ⟨[], none, 0⟩).page,
          inferLevel ((infer_bookmark_level bms).take i) (bms.getD i ⟨[], none, 0⟩).title⟩ := by
  constructor
  · simpa using inferAux_length bms []
  · intro i hi
    have h := inferAux_getD ⟨[], none, 0⟩ bms [] i hi
    simpa [infer_bookmark_level] using h

/-- Witness for C7 at a concrete two-element input. -/
theorem c7_witness :
    (1 < ([⟨"1 A".data, none, 0⟩, ⟨"1.1 B".data, none, 0⟩] : List Bookmark).length) ∧
    (infer_bookmark_level [⟨"1 A".data, none, 0⟩, ⟨"1.1 B".data, none, 0⟩]).getD 1 ⟨[], none, 0⟩ =
      ⟨(([⟨"1 A".data, none, 0⟩, ⟨"1.1 B".data, none, 0⟩] :
          List Bookmark).getD 1 ⟨[], none, 0⟩).title,
        (([⟨"1 A".data, none, 0⟩, ⟨"1.1 B".data, none, 0⟩] :
          List Bookmark).getD 1 ⟨[], none, 0⟩).page,
        inferLevel
          ((infer_bookmark_level [⟨"1 A".data, none, 0⟩, ⟨"1.1 B".data, none, 0⟩]).take 1)
          (([⟨"1 A".data, none, 0⟩, ⟨"1.1 B".data, none, 0⟩] :
            List Bookmark).getD 1 ⟨[], none, 0⟩).title⟩ :=
  ⟨by decide, (c7_thm [⟨"1 A".data, none, 0⟩, ⟨"1.1 B".data, none, 0⟩]).2 1 (by decide)⟩

/-- Claim C8: the inferencer is invoked (by `extract_bookmarks`) exactly
under the guard "every level is 0 and more than one entry"; when any
bookmark has positive level the guard fails and the sequence passes through
unchanged; and `infer_bookmark_level` itself never changes titles or
pages. -/
theorem c8_thm (bms : List Bookmark) :
    ((bms.all (fun b => b.level == 0) = true ∧ 1 < bms.length) →
        maybeInferLevels bms = infer_bookmark_level bms) ∧
    (¬(bms.all (fun b => b.level == 0) = true ∧ 1 < bms.length) →
        maybeInferLevels bms = bms) ∧
    ((∃ b ∈ bms, 0 < b.level) → maybeInferLevels bms = bms) ∧
    (infer_bookmark_level bms).map (fun b => (b.title, b.page)) =
      bms.map (fun b => (b.title, b.page)) := by
  refine ⟨?_, ?_, ?_, ?_⟩
  · intro h
    unfold maybeInferLevels
    rw [if_pos]
    simp [h.1, h.2]
  · intro h
    unfold maybeInferLevels
    rw [if_neg]
    intro hc
    rcases Bool.and_eq_true_iff.mp hc with ⟨h1, h2⟩
    exact h ⟨h1, by simpa using h2⟩
  · intro h
    obtain ⟨b, hb, hlvl⟩ := h
    unfold maybeInferLevels
    rw [if_neg]
    intro hc
    rcases Bool.and_eq_true_iff.mp hc with ⟨h1, _⟩
    have := List.all_eq_true.mp h1 b hb
    simp at this
    omega
  · simpa using inferAux_map bms []

/-- Witness for C8: guard satisfied at a concrete input. -/
theorem c8_witness :
    (([⟨"1 A".data, none, 0⟩, ⟨"1.1 B".data, none, 0⟩] : List Bookmark).all
        (fun b => b.level == 0) = true ∧
      1 < ([⟨"1 A".data, none, 0⟩, ⟨"1.1 B".data, none, 0⟩] : List Bookmark).length) ∧
    maybeInferLevels [⟨"1 A".data, none, 0⟩, ⟨"1.1 B".data, none, 0⟩] =
      infer_bookmark_level [⟨"1 A".data, none, 0⟩, ⟨"1.1 B".data, none, 0⟩] :=
  ⟨⟨by decide, by decide⟩,
    (c8_thm [⟨"1 A".data, none, 0⟩, ⟨"1.1 B".data, none, 0⟩]).1 ⟨by decide, by decide⟩⟩

end Pdf

namespace Pdf

/-! ## Helper lemmas about `flatten_bookmarks` -/

mutual
/-- Flattening emits exactly one record per bookmark object, whatever the
page table and resolution outcomes are. -/
theorem flatten_length_o (pages : List PageT) :
    ∀ (d : Nat) (o : Outline), (flatten_bookmarks pages d o).length = nodeCount o
  | d, .node t dest cs => by
    simp [flatten_bookmarks, nodeCount, flatten_length_l pages (d + 1) cs]
    omega
  | d, .group items => by
    simp [flatten_bookmarks, nodeCount, flatten_length_l pages d items]

/-- List version of `flatten_length_o`. -/
theorem flatten_length_l (pages : List PageT) :
    ∀ (d : Nat) (os : OutlineList), (flattenList pages d os).length = nodeCountL os
  | _, .nil => by simp [flattenList, nodeCountL]
  | d, .cons o os => by
    simp [flattenList, nodeCountL, flatten_length_o pages d o, flatten_length_l pages d os]
end

mutual
/-- The titles and levels of the flattened records do not depend on the page
table: resolution failures only affect the `page` fields. -/
theorem flatten_struct_o (p1 p2 : List PageT) :
    ∀ (d : Nat) (o : Outline),
      (flatten_bookmarks p1 d o).map (fun b => (b.title, b.level)) =
        (flatten_bookmarks p2 d o).map (fun b => (b.title, b.level))
  | d, .node t dest cs => by
    simp [flatten_bookmarks, flatten_struct_l p1 p2 (d + 1) cs]
  | d, .group items => by
    simp [flatten_bookmarks]
    exact flatten_struct_l p1 p2 d items

/-- List version of `flatten_struct_o`. -/
theorem flatten_struct_l (p1 p2 : List PageT) :
    ∀ (d : Nat) (os : OutlineList),
      (flattenList p1 d os).map (fun b => (b.title, b.level)) =
        (flattenList p2 d os).map (fun b => (b.title, b.level))
  | _, .nil => by simp [flattenList]
  | d, .cons o os => by
    simp [flattenList, flatten_struct_o p1 p2 d o, flatten_struct_l p1 p2 d os]
end

mutual
/-- In an outline whose nodes all have empty `children`, every record is
emitted at the incoming level. -/
theorem flatten_leaf_o (pages : List PageT) :
    ∀ (d : Nat) (o : Outline), leafOnly o = true →
      ∀ b, b ∈ flatten_bookmarks pages d o → b.level = d
  | d, .node t dest cs, h, b, hb => by
    cases cs with
    | nil =>
      simp [flatten_bookmarks, flattenList] at hb
      simp [hb]
    | cons o os => simp [leafOnly] at h
  | d, .group items, h, b, hb =>
    flatten_leaf_l pages d items (by simpa [leafOnly] using h) b
      (by simpa [flatten_bookmarks] using hb)

/-- List version of `flatten_leaf_o`. -/
theorem flatten_leaf_l (pages : List PageT) :
    ∀ (d : Nat) (os : OutlineList), leafOnlyL os = true →
      ∀ b, b ∈ flattenList pages d os → b.level = d
  | d, .nil, _, b, hb => by simp [flattenList] at hb
  | d, .cons o os, h, b, hb => by
    have h12 : leafOnly o = true ∧ leafOnlyL os = true := by
      simpa [leafOnlyL] using h
    rw [flattenList] at hb
    rcases List.mem_append.mp hb with h3 | h3
    · exact flatten_leaf_o pages d o h12.1 b h3
    · exact flatten_leaf_l pages d os h12.2 b h3
end

/-! ## Claims C10, C6, C5 -/

/-- Claim C10: a nested sibling list is flattened at the list's own depth and
depth only increases through `children`; hence an outline whose nesting is
encoded purely as nested sibling lists (all `children` empty) flattens with
level 0 everywhere, which is exactly the all-zero condition under which
`extract_bookmarks` invokes the hierarchy inferencer. -/
theorem c10_thm (pages : List PageT) :
    (∀ (d : Nat) (items : OutlineList),
        flatten_bookmarks pages d (.group items) = flattenList pages d items) ∧
    (∀ (d : Nat) (os : OutlineList), leafOnlyL os = true →
        ∀ b ∈ flattenList pages d os, b.level = d) ∧
    (∀ os : OutlineList, leafOnlyL os = true →
        (flattenList pages 0 os).all (fun b => b.level == 0) = true ∧
        (1 < (flattenList pages 0 os).length →
          maybeInferLevels (flattenList pages 0 os) =
            infer_bookmark_level (flattenList pages 0 os))) := by
  refine ⟨fun d items => by simp [flatten_bookmarks], ?_, ?_⟩
  · intro d os h b hb
    exact flatten_leaf_l pages d os h b hb
  · intro os h
    have hall : (flattenList pages 0 os).all (fun b => b.level == 0) = true := by
      rw [List.all_eq_true]
      intro b hb
      simpa using flatten_leaf_l pages 0 os h b hb
    refine ⟨hall, fun hlen => ?_⟩
    unfold maybeInferLevels
    rw [if_pos]
    simp [hall, hlen]

/-- Witness for C10 on a concrete two-node outline given as a flat sibling
list. -/
theorem c10_witness :
    (leafOnlyL (.cons (.node (some "1 A".data) .plainDict .nil)
        (.cons (.node (some "1.1 B".data) .plainDict .nil) .nil)) = true ∧
      1 < (flattenList [] 0 (.cons (.node (some "1 A".data) .plainDict .nil)
        (.cons (.node (some "1.1 B".data) .plainDict .nil) .nil))).length) ∧
    maybeInferLevels (flattenList [] 0 (.cons (.node (some "1 A".data) .plainDict .nil)
        (.cons (.node (some "1.1 B".data) .plainDict .nil) .nil))) =
      infer_bookmark_level (flattenList [] 0 (.cons (.node (some "1 A".data) .plainDict .nil)
        (.cons (.node (some "1.1 B".data) .plainDict .nil) .nil))) :=
  ⟨⟨by decide, by decide⟩,
    ((c10_thm []).2.2 (.cons (.node (some "1 A".data) .plainDict .nil)
        (.cons (.node (some "1.1 B".data) .plainDict .nil) .nil)) (by decide)).2 (by decide)⟩

/-- Claim C6: destination resolution is total as an `Option`-returning
function — flattening emits one record per node however resolution turns out
(so one malformed destination never suppresses the records of other
bookmarks, whose titles and levels are independent of the page table), a
raising `get_destination_page_number` is absorbed into `none` by the
function-wide handler, and a raising `get_object` behaves exactly like a
probe that produced no answer. -/
theorem c6_thm :
    (∀ (pages : List PageT) (d : Nat) (os : OutlineList),
        (flattenList pages d os).length = nodeCountL os) ∧
    (∀ (p1 p2 : List PageT) (d : Nat) (os : OutlineList),
        (flattenList p1 d os).map (fun b => (b.title, b.level)) =
          (flattenList p2 d os).map (fun b => (b.title, b.level))) ∧
    (∀ pages : List PageT, get_bookmark_page (.pageEntry (.error ())) pages = none) ∧
    (∀ (pages : List PageT) (ref : Nat) (idn : Option Nat),
        get_bookmark_page (.dEntry (some ⟨ref, idn, some .raises⟩)) pages =
          get_bookmark_page (.dEntry (some ⟨ref, idn, none⟩)) pages) := by
  refine ⟨fun pages d os => flatten_length_l pages d os,
    fun p1 p2 d os => flatten_struct_l p1 p2 d os,
    fun pages => rfl, ?_⟩
  intro pages ref idn
  simp only [get_bookmark_page]

/-- Claim C5 counterexample: resolution can produce pages outside
`[1, total_pages]` — with one page in the table, the object-id estimate for
`idnum = 1` is `min(1 // 2, 1) = 0`, and the StructParents path returns the
unclamped `100 + 1 = 101`. -/
theorem c5_counterexample :
    get_bookmark_page (.indirectRef 99 (some 1)) [⟨0, none⟩] = some 0 ∧
    get_bookmark_page (.dEntry (some ⟨99, some 5, some (.structParents 100)⟩)) [⟨0, none⟩]
      = some 101 ∧
    ¬(1 ≤ (0 : Int)) ∧ ¬((101 : Int) ≤ 1) := by decide

/-- Claim C5 (amended): when both page-table scans fail, the object-id
estimate path returns exactly `min(idnum / 2, total_pages)`, which lies in
`[0, total_pages]` but can be 0 (so it is not guaranteed to be a 1-based
page number), and the StructParents path returns `attribute + 1` with no
clamping to `total_pages`. -/
theorem c5_thm (pages : List PageT) (ref idn : Nat) (sp : Int)
    (h1 : pages.findIdx? (fun p => p.ref == ref) = none)
    (h2 : pages.findIdx? (fun p => p.idnum == some idn) = none) :
    get_bookmark_page (.indirectRef ref (some idn)) pages =
      some ((min (idn / 2) pages.length : Nat) : Int) ∧
    (0 : Int) ≤ ((min (idn / 2) pages.length : Nat) : Int) ∧
    ((min (idn / 2) pages.length : Nat) : Int) ≤ (pages.length : Int) ∧
    get_bookmark_page (.dEntry (some ⟨ref, some idn, some (.structParents sp)⟩)) pages =
      some (sp + 1) := by
  refine ⟨?_, ?_, ?_, ?_⟩
  · simp [get_bookmark_page, h1, h2]
  · exact Int.natCast_nonneg _
  · exact_mod_cast Nat.min_le_right _ _
  · simp [get_bookmark_page, h1, h2]

/-- Witness for C5 at a concrete one-page table. -/
theorem c5_witness :
    (([⟨0, none⟩] : List PageT).findIdx? (fun p => p.ref == 99) = none ∧
      ([⟨0, none⟩] : List PageT).findIdx? (fun p => p.idnum == some 1) = none) ∧
    (get_bookmark_page (.indirectRef 99 (some 1)) [⟨0, none⟩] =
        some ((min (1 / 2) ([⟨0, none⟩] : List PageT).length : Nat) : Int) ∧
      (0 : Int) ≤ ((min (1 / 2) ([⟨0, none⟩] : List PageT).length : Nat) : Int) ∧
      ((min (1 / 2) ([⟨0, none⟩] : List PageT).length : Nat) : Int) ≤
        (([⟨0, none⟩] : List PageT).length : Int) ∧
      get_bookmark_page (.dEntry (some ⟨99, some 1, some (.structParents 100)⟩)) [⟨0, none⟩] =
        some (100 + 1)) :=
  ⟨⟨by decide, by decide⟩, c5_thm [⟨0, none⟩] 99 1 100 (by decide) (by decide)⟩

end Pdf

namespace Pdf

/-! ## Helper lemmas about the stable sort `sortByKey` -/

/-- Inserting is a permutation by consing. -/
theorem insertK_perm {α : Type} (key : α → Int) (x : α) :
    ∀ l : List α, (insertK key x l).Perm (x :: l) := by
  intro l
  induction l with
  | nil => simp [insertK]
  | cons y ys ih =>
    simp only [insertK]
    split
    · exact (ih.cons y).trans (List.Perm.swap x y ys)
    · exact List.Perm.refl _

/-- The insertion fold permutes the accumulator followed by the input. -/
theorem foldl_insertK_perm {α : Type} (key : α → Int) :
    ∀ (l acc : List α), (l.foldl (fun acc x => insertK key x acc) acc).Perm (acc ++ l) := by
  intro l
  induction l with
  | nil => intro acc; simp
  | cons x xs ih =>
    intro acc
    rw [List.foldl_cons]
    have h2 : (insertK key x acc ++ xs).Perm ((x :: acc) ++ xs) :=
      (insertK_perm key x acc).append_right xs
    have h3 : ((x :: acc) ++ xs).Perm (acc ++ x :: xs) := by
      simpa using (@List.perm_middle _ x acc xs).symm
    exact ((ih (insertK key x acc)).trans h2).trans h3

/-- `sortByKey` permutes its input. -/
theorem sortByKey_perm {α : Type} (key : α → Int) (l : List α) :
    (sortByKey key l).Perm l := by
  simpa [sortByKey] using foldl_insertK_perm key l []

/-- Inserting into a key-sorted list keeps it key-sorted. -/
theorem insertK_pairwise {α : Type} (key : α → Int) (x : α) :
    ∀ l : List α, l.Pairwise (fun a b => key a ≤ key b) →
      (insertK key x l).Pairwise (fun a b => key a ≤ key b) := by
  intro l
  induction l with
  | nil => intro _; simp [insertK]
  | cons y ys ih =>
    intro hp
    rw [List.pairwise_cons] at hp
    simp only [insertK]
    split
    · rename_i hle
      rw [List.pairwise_cons]
      refine ⟨?_, ih hp.2⟩
      intro b hb
      have hb2 : b ∈ x :: ys := (insertK_perm key x ys).mem_iff.mp hb
      rcases List.mem_cons.mp hb2 with rfl | h
      · exact hle
      · exact hp.1 b h
    · rename_i hgt
      rw [List.pairwise_cons]
      constructor
      · intro b hb
        rcases List.mem_cons.mp hb with rfl | h
        · omega
        · have := hp.1 b h
          omega
      · exact List.pairwise_cons.mpr hp

/-- The insertion fold keeps the accumulator key-sorted. -/
theorem foldl_insertK_pairwise {α : Type} (key : α → Int) :
    ∀ (l acc : List α), acc.Pairwise (fun a b => key a ≤ key b) →
      (l.foldl (fun acc x => insertK key x acc) acc).Pairwise (fun a b => key a ≤ key b) := by
  intro l
  induction l with
  | nil => intro acc h; simpa using h
  | cons x xs ih =>
    intro acc h
    rw [List.foldl_cons]
    exact ih (insertK key x acc) (insertK_pairwise key x acc h)

/-- `sortByKey` sorts by the key (non-strictly). -/
theorem sortByKey_pairwise {α : Type} (key : α → Int) (l : List α) :
    (sortByKey key l).Pairwise (fun a b => key a ≤ key b) :=
  foldl_insertK_pairwise key l [] (by simp)

/-- Inserting into a key-sorted list puts the new element after every
element with the same key: filtering any key class appends at most the new
element. -/
theorem insertK_filter {α : Type} (key : α → Int) (x : α) (k : Int) :
    ∀ l : List α, l.Pairwise (fun a b => key a ≤ key b) →
      (insertK key x l).filter (fun a => key a == k) =
        l.filter (fun a => key a == k) ++ (if key x == k then [x] else []) := by
  intro l
  induction l with
  | nil =>
    intro _
    cases h : (key x == k : Bool) <;> simp [insertK, List.filter_cons, h]
  | cons y ys ih =>
    intro hp
    rw [List.pairwise_cons] at hp
    simp only [insertK]
    split
    · rename_i hle
      simp only [List.filter_cons]
      rw [ih hp.2]
      cases hy : (key y == k : Bool) <;> simp [hy]
    · rename_i hgt
      rw [List.filter_cons]
      by_cases hx : (key x == k : Bool) = true
      · have hxk : key x = k := by simpa using hx
        have hempty : (y :: ys).filter (fun a => key a == k) = [] := by
          rw [List.filter_eq_nil_iff]
          intro b hb
          rcases List.mem_cons.mp hb with rfl | h
          · simp only [beq_iff_eq]
            omega
          · have := hp.1 b h
            simp only [beq_iff_eq]
            omega
        simp [hx, hempty]
      · simp only [Bool.not_eq_true] at hx
        simp [hx]

/-- The insertion fold is stable: each key class of the result is the key
class of the accumulator followed by that of the input, in order. -/
theorem foldl_insertK_filter {α : Type} (key : α → Int) (k : Int) :
    ∀ (l acc : List α), acc.Pairwise (fun a b => key a ≤ key b) →
      (l.foldl (fun acc x => insertK key x acc) acc).filter (fun a => key a == k) =
        acc.filter (fun a => key a == k) ++ l.filter (fun a => key a == k) := by
  intro l
  induction l with
  | nil => intro acc _; simp
  | cons x xs ih =>
    intro acc h
    rw [List.foldl_cons, ih (insertK key x acc) (insertK_pairwise key x acc h),
      insertK_filter key x k acc h, List.filter_cons]
    cases hx : (key x == k : Bool) <;> simp [hx]

/-- `sortByKey` is stable: it preserves each key class elementwise. -/
theorem sortByKey_filter {α : Type} (key : α → Int) (k : Int) (l : List α) :
    (sortByKey key l).filter (fun a => key a == k) = l.filter (fun a => key a == k) := by
  simpa [sortByKey] using foldl_insertK_filter key k l []

/-! ## Helper lemmas about `mkRanges` and `addCover` -/

/-- On a nonempty, key-sorted bookmark list whose pages all lie in
`[1, total]`, the range loop produces a nonempty list of ranges whose first
range starts at `first_page - 1`, whose consecutive ranges are exactly
adjacent, whose ranges are all nondegenerate, and whose last range ends at
`total - 1`. -/
theorem mkRanges_cons (total : Int) :
    ∀ (l : List PBookmark) (b : PBookmark),
      (b :: l).Chain' (fun x y => pageKey x ≤ pageKey y) →
      (∀ x ∈ b :: l, 1 ≤ pageKey x ∧ pageKey x ≤ total) →
      ∃ r tl lr, mkRanges total (b :: l) = r :: tl ∧
        r.start = pageKey b - 1 ∧
        (r :: tl).Chain' (fun u v => v.start = u.stop + 1) ∧
        (∀ u ∈ r :: tl, u.start ≤ u.stop) ∧
        (r :: tl).getLast? = some lr ∧ lr.stop = total - 1 := by
  intro l
  induction l with
  | nil =>
    intro b _ hb
    have h1 := hb b (by simp)
    refine ⟨⟨b.title, pageKey b - 1, total - 1⟩, [], ⟨b.title, pageKey b - 1, total - 1⟩,
      ?_, rfl, by simp, ?_, rfl, rfl⟩
    · simp only [mkRanges]
      rw [if_pos (by omega)]
    · intro u hu
      simp only [List.mem_singleton] at hu
      subst hu
      simp only []
      omega
  | cons b2 rest ih =>
    intro b hch hb
    have hbb2 : pageKey b ≤ pageKey b2 := (List.chain'_cons.mp hch).1
    have hch2 : (b2 :: rest).Chain' (fun x y => pageKey x ≤ pageKey y) :=
      (List.chain'_cons.mp hch).2
    have hb2 : ∀ x ∈ b2 :: rest, 1 ≤ pageKey x ∧ pageKey x ≤ total := by
      intro x hx
      exact hb x (List.mem_cons_of_mem _ hx)
    obtain ⟨r2, tl2, lr2, heq2, hstart2, hchain2, hvalid2, hlast2, hstop2⟩ := ih b2 hch2 hb2
    by_cases hc : pageKey b - 1 ≤ pageKey b2 - 2
    · refine ⟨⟨b.title, pageKey b - 1, pageKey b2 - 2⟩, r2 :: tl2, lr2, ?_, rfl, ?_, ?_, ?_, hstop2⟩
      · simp only [mkRanges]
        rw [if_pos hc, heq2]
        rfl
      · rw [List.chain'_cons]
        refine ⟨?_, hchain2⟩
        show r2.start = (pageKey b2 - 2) + 1
        omega
      · intro u hu
        rcases List.mem_cons.mp hu with rfl | h
        · simpa using hc
        · exact hvalid2 u h
      · rw [List.getLast?_cons_cons]
        exact hlast2
    · refine ⟨r2, tl2, lr2, ?_, by omega, hchain2, hvalid2, hlast2, hstop2⟩
      simp only [mkRanges]
      rw [if_neg hc, heq2]
      rfl

/-- `getLast?` of a nonempty list through `getLastD`. -/
theorem getLast?_eq_getLastD {α : Type} :
    ∀ (tl : List α) (r : α), (r :: tl).getLast? = some (tl.getLastD r) := by
  intro tl
  induction tl with
  | nil => intro r; rfl
  | cons s tl2 ih =>
    intro r
    rw [List.getLast?_cons_cons, ih s, List.getLastD_cons]

/-- Coverage completion on a nonempty adjacent-chained range list that ends
at `total - 1` and starts at a nonnegative start: the result is again
adjacent-chained and nondegenerate, now starting at 0 and still ending at
`total - 1`. -/
theorem addCover_props (total : Int) (r : PRange) (tl : List PRange)
    (hch : (r :: tl).Chain' (fun u v => v.start = u.stop + 1))
    (hv : ∀ u ∈ r :: tl, u.start ≤ u.stop)
    (hstart : 0 ≤ r.start)
    (lr : PRange) (hlast : (r :: tl).getLast? = some lr) (hstop : lr.stop = total - 1) :
    ∃ r0 tl0 lr0, addCover total (r :: tl) = r0 :: tl0 ∧
      r0.start = 0 ∧
      (r0 :: tl0).Chain' (fun u v => v.start = u.stop + 1) ∧
      (∀ u ∈ r0 :: tl0, u.start ≤ u.stop) ∧
      (r0 :: tl0).getLast? = some lr0 ∧ lr0.stop = total - 1 := by
  have hlastD : tl.getLastD r = lr := by
    have := getLast?_eq_getLastD tl r
    rw [hlast] at this
    exact (Option.some_inj.mp this).symm
  have hnoback : ¬((tl.getLastD r).stop < total - 1) := by
    rw [hlastD]
    omega
  by_cases hfront : 0 < r.start
  · refine ⟨⟨frontTitle, 0, r.start - 1⟩, r :: tl, lr, ?_, rfl, ?_, ?_, ?_, hstop⟩
    · simp only [addCover]
      rw [if_neg hnoback, if_pos hfront]
    · rw [List.chain'_cons]
      refine ⟨?_, hch⟩
      show r.start = (r.start - 1) + 1
      omega
    · intro u hu
      rcases List.mem_cons.mp hu with rfl | h
      · simp only []
        omega
      · exact hv u h
    · rw [List.getLast?_cons_cons]
      exact hlast
  · refine ⟨r, tl, lr, ?_, by omega, hch, hv, hlast, hstop⟩
    simp only [addCover]
    rw [if_neg hnoback, if_neg hfront]

/-- An adjacent-chained list of nondegenerate ranges is pairwise
non-overlapping and covers exactly the interval from its first start to its
last stop. -/
theorem chainAdj_props :
    ∀ (tl : List PRange) (r : PRange),
      (r :: tl).Chain' (fun u v => v.start = u.stop + 1) →
      (∀ u ∈ r :: tl, u.start ≤ u.stop) →
      (r :: tl).Pairwise (fun u v => u.stop < v.start) ∧
      ∃ lr, (r :: tl).getLast? = some lr ∧
        ∀ p : Int, (∃ u ∈ r :: tl, u.start ≤ p ∧ p ≤ u.stop) ↔
          (r.start ≤ p ∧ p ≤ lr.stop) := by
  intro tl
  induction tl with
  | nil =>
    intro r _ hv
    refine ⟨by simp, r, rfl, fun p => ?_⟩
    simp
  | cons s tl2 ih =>
    intro r hch hv
    have hrs : s.start = r.stop + 1 := (List.chain'_cons.mp hch).1
    have hch2 := (List.chain'_cons.mp hch).2
    have hv2 : ∀ u ∈ s :: tl2, u.start ≤ u.stop :=
      fun u hu => hv u (List.mem_cons_of_mem _ hu)
    obtain ⟨hpw2, lr, hlast, hiff⟩ := ih s hch2 hv2
    have hrv : r.start ≤ r.stop := hv r (by simp)
    have hsv : s.start ≤ s.stop := hv2 s (by simp)
    have hs_le : s.start ≤ lr.stop :=
      ((hiff s.start).mp ⟨s, by simp, le_refl _, hsv⟩).2
    constructor
    · rw [List.pairwise_cons]
      refine ⟨?_, hpw2⟩
      intro v hv'
      rcases List.mem_cons.mp hv' with rfl | hvtl
      · omega
      · have := (List.pairwise_cons.mp hpw2).1 v hvtl
        omega
    · refine ⟨lr, by rw [List.getLast?_cons_cons]; exact hlast, fun p => ?_⟩
      constructor
      · rintro ⟨u, hu, h1, h2⟩
        rcases List.mem_cons.mp hu with rfl | hu2
        · exact ⟨h1, by omega⟩
        · have hmem := (hiff p).mp ⟨u, hu2, h1, h2⟩
          exact ⟨by omega, hmem.2⟩
      · rintro ⟨h1, h2⟩
        by_cases hp : p ≤ r.stop
        · exact ⟨r, by simp, h1, hp⟩
        · have hsp : s.start ≤ p := by omega
          obtain ⟨u, hu, hh⟩ := (hiff p).mpr ⟨hsp, h2⟩
          exact ⟨u, List.mem_cons_of_mem _ hu, hh⟩

end Pdf

namespace Pdf

/-! ## Assembly lemmas for the planner claims -/

/-- A map that fixes every member is the identity. -/
theorem map_id_of_mem {α : Type} (f : α → α) :
    ∀ l : List α, (∀ x ∈ l, f x = x) → l.map f = l := by
  intro l
  induction l with
  | nil => intro _; rfl
  | cons a t ih =>
    intro h
    simp only [List.map_cons]
    rw [h a (by simp), ih (fun x hx => h x (List.mem_cons_of_mem _ hx))]

/-- Nondegenerate, pairwise non-overlapping ranges have strictly increasing
starts. -/
theorem pairwise_start_lt (l : List PRange)
    (h1 : l.Pairwise (fun u v => u.stop < v.start))
    (h2 : ∀ u ∈ l, u.start ≤ u.stop) :
    l.Pairwise (fun u v => u.start < v.start) := by
  induction l with
  | nil => simp
  | cons a t ih =>
    rw [List.pairwise_cons] at h1 ⊢
    refine ⟨?_, ih h1.2 (fun u hu => h2 u (List.mem_cons_of_mem _ hu))⟩
    intro b hb
    have hab := h1.1 b hb
    have haa := h2 a (by simp)
    omega

/-- Every surviving bookmark of the planner has its (converted) page in
`[1, total]`, provided conversion never produced a positive page above
`total`. -/
theorem validBookmarks_bounds (bms : List PBookmark) (total lvl : Int)
    (hp : ∀ b ∈ bms, b.level = lvl → pageWithin total b = true) :
    ∀ x ∈ validBookmarks bms lvl, 1 ≤ pageKey x ∧ pageKey x ≤ total := by
  intro x hx
  unfold validBookmarks at hx
  rw [List.mem_filter] at hx
  obtain ⟨hmem, hvalid⟩ := hx
  rw [List.mem_map] at hmem
  obtain ⟨b0, hb0, hxeq⟩ := hmem
  rw [List.mem_filter] at hb0
  obtain ⟨hb0mem, hb0lvl⟩ := hb0
  have hlvl : b0.level = lvl := by simpa using hb0lvl
  have hpw := hp b0 hb0mem hlvl
  rcases hcv : convert_to_page_number b0.page with _ | n
  · rw [← hxeq] at hvalid
    simp [convStep, hcv, validPage] at hvalid
  · have hpage : x.page = .pyInt n := by
      rw [← hxeq]
      simp [convStep, hcv]
    have hpos : 0 < n := by
      have hv := hvalid
      simp only [validPage, hpage] at hv
      simpa using hv
    have hkey : pageKey x = n := by
      simp [pageKey, hpage]
    have hle : n ≤ total := by
      simp [pageWithin, hcv] at hpw
      omega
    rw [hkey]
    omega

/-! ## Claims C1, C3, C4, C9 -/

/-- Claim C1 counterexample: with `total_pages = 10` and bookmark pages 2 and
100 (level 0), the planner returns a non-empty plan containing a range whose
end exceeds `total_pages - 1`, so the plan is neither within bounds nor a
partition of `{0, ..., 9}`. -/
theorem c1_counterexample :
    (1 : Int) ≤ 10 ∧
    (get_page_ranges [⟨"A".data, .pyInt 2, 0⟩, ⟨"B".data, .pyInt 100, 0⟩] 10 0).1 ≠ [] ∧
    ∃ u ∈ (get_page_ranges [⟨"A".data, .pyInt 2, 0⟩, ⟨"B".data, .pyInt 100, 0⟩] 10 0).1,
      (10 : Int) - 1 < u.stop := by decide

/-- Claim C1 (amended): for `total_pages ≥ 1`, when additionally every
target-level bookmark whose page converts to a positive integer converts to
one at most `total_pages`, every non-empty planner output is sorted by
start, pairwise non-overlapping, contained in `[0, total_pages - 1]`, and
its union of inclusive ranges is exactly `{0, ..., total_pages - 1}`. -/
theorem c1_thm (bms : List PBookmark) (total lvl : Int)
    (htot : 1 ≤ total)
    (hp : ∀ b ∈ bms, b.level = lvl → pageWithin total b = true)
    (hne : (get_page_ranges bms total lvl).1 ≠ []) :
    ((get_page_ranges bms total lvl).1.Pairwise (fun u v => u.start < v.start)) ∧
    ((get_page_ranges bms total lvl).1.Pairwise (fun u v => u.stop < v.start)) ∧
    (∀ u ∈ (get_page_ranges bms total lvl).1,
        0 ≤ u.start ∧ u.start ≤ u.stop ∧ u.stop ≤ total - 1) ∧
    (∀ p : Int, (∃ u ∈ (get_page_ranges bms total lvl).1, u.start ≤ p ∧ p ≤ u.stop) ↔
        (0 ≤ p ∧ p ≤ total - 1)) := by
  by_cases h1 : (bms.filter (fun b => b.level == lvl)).isEmpty = true
  · unfold get_page_ranges at hne
    rw [if_pos h1] at hne
    simp at hne
  by_cases h2 : (validBookmarks bms lvl).isEmpty = true
  · unfold get_page_ranges at hne
    rw [if_neg h1, if_pos h2] at hne
    simp at hne
  have hmain : (get_page_ranges bms total lvl).1 =
      addCover total (mkRanges total (sortByKey pageKey (validBookmarks bms lvl))) := by
    unfold get_page_ranges
    rw [if_neg h1, if_neg h2]
  have hVne : validBookmarks bms lvl ≠ [] := by
    intro hnil
    exact h2 (by rw [hnil]; rfl)
  have hSne : sortByKey pageKey (validBookmarks bms lvl) ≠ [] := by
    intro hnil
    have hlen := (sortByKey_perm pageKey (validBookmarks bms lvl)).length_eq
    rw [hnil] at hlen
    exact hVne (List.length_eq_zero.mp hlen.symm)
  obtain ⟨b, l, hSeq⟩ := List.exists_cons_of_ne_nil hSne
  have hchainS : (b :: l).Chain' (fun x y => pageKey x ≤ pageKey y) := by
    rw [← hSeq]
    exact (sortByKey_pairwise pageKey (validBookmarks bms lvl)).chain'
  have hboundsS : ∀ x ∈ b :: l, 1 ≤ pageKey x ∧ pageKey x ≤ total := by
    intro x hx
    rw [← hSeq] at hx
    exact validBookmarks_bounds bms total lvl hp x
      ((sortByKey_perm pageKey (validBookmarks bms lvl)).mem_iff.mp hx)
  obtain ⟨r, tl, lr, heq, hstart, hchain, hvalid, hlast, hstop⟩ :=
    mkRanges_cons total l b hchainS hboundsS
  have hb1 : 1 ≤ pageKey b := (hboundsS b (by simp)).1
  have hr0 : 0 ≤ r.start := by omega
  obtain ⟨r0, tl0, lr0, heq0, hstart0, hchain0, hvalid0, hlast0, hstop0⟩ :=
    addCover_props total r tl hchain hvalid hr0 lr hlast hstop
  rw [hmain, hSeq, heq, heq0]
  obtain ⟨hpw, lr1, hlast1, hiff⟩ := chainAdj_props tl0 r0 hchain0 hvalid0
  have hlr : lr1 = lr0 := by
    rw [hlast0] at hlast1
    exact (Option.some_inj.mp hlast1).symm
  rw [hlr] at hiff
  refine ⟨pairwise_start_lt _ hpw hvalid0, hpw, ?_, ?_⟩
  · intro u hu
    refine ⟨?_, hvalid0 u hu, ?_⟩
    · rcases List.mem_cons.mp hu with rfl | h
      · omega
      · have h3 := (List.pairwise_cons.mp hpw).1 u h
        have h4 := hvalid0 r0 (by simp)
        omega
    · have h5 := (hiff u.stop).mp ⟨u, hu, hvalid0 u hu, le_refl _⟩
      omega
  · intro p
    rw [hiff p, hstart0, hstop0]

/-- Witness for C1 at a one-bookmark input. -/
theorem c1_witness :
    ((1 : Int) ≤ 5 ∧
      (∀ b ∈ ([⟨"A".data, .pyInt 3, 0⟩] : List PBookmark),
          b.level = 0 → pageWithin 5 b = true) ∧
      (get_page_ranges [⟨"A".data, .pyInt 3, 0⟩] 5 0).1 ≠ []) ∧
    (((get_page_ranges [⟨"A".data, .pyInt 3, 0⟩] 5 0).1.Pairwise
        (fun u v => u.start < v.start)) ∧
      ((get_page_ranges [⟨"A".data, .pyInt 3, 0⟩] 5 0).1.Pairwise
        (fun u v => u.stop < v.start)) ∧
      (∀ u ∈ (get_page_ranges [⟨"A".data, .pyInt 3, 0⟩] 5 0).1,
          0 ≤ u.start ∧ u.start ≤ u.stop ∧ u.stop ≤ 5 - 1) ∧
      (∀ p : Int, (∃ u ∈ (get_page_ranges [⟨"A".data, .pyInt 3, 0⟩] 5 0).1,
          u.start ≤ p ∧ p ≤ u.stop) ↔ (0 ≤ p ∧ p ≤ 5 - 1))) :=
  ⟨⟨by decide, by decide, by decide⟩,
    c1_thm [⟨"A".data, .pyInt 3, 0⟩] 5 0 (by decide) (by decide) (by decide)⟩

/-- Claim C3 counterexample: on bookmarks A at page 5 and B at page 12 with
20 pages and level 0, the planner's ranges are `{0,3}, {4,10}, {11,19}`, not
the claimed `{0,4}, {4,11}, {11,19}` (which would overlap at pages 4 and
11). -/
theorem c3_counterexample :
    ((get_page_ranges [⟨"A".data, .pyInt 5, 0⟩, ⟨"B".data, .pyInt 12, 0⟩] 20 0).1.map
        (fun r => (r.start, r.stop)) = [(0, 3), (4, 10), (11, 19)]) ∧
    ((get_page_ranges [⟨"A".data, .pyInt 5, 0⟩, ⟨"B".data, .pyInt 12, 0⟩] 20 0).1.map
        (fun r => (r.start, r.stop)) ≠ [(0, 4), (4, 11), (11, 19)]) := by decide

/-- Claim C3 (amended): on that input the planner returns exactly three
ranges in order — the synthetic front-matter range `{start:0, end:3}`, range
`{start:4, end:10}` titled "A", and range `{start:11, end:19}` titled
"B". -/
theorem c3_thm :
    (get_page_ranges [⟨"A".data, .pyInt 5, 0⟩, ⟨"B".data, .pyInt 12, 0⟩] 20 0).1 =
      [⟨frontTitle, 0, 3⟩, ⟨"A".data, 4, 10⟩, ⟨"B".data, 11, 19⟩] := by decide

/-- Claim C4: after dropping entries without a valid page, the survivors are
sorted by page ascending with a stable sort (each page class keeps document
order; the sorted list is a permutation of the survivors); entry `i` yields
the candidate range `start = page_i - 1`, `end = page_(i+1) - 2` or
`total - 1`; the produced ranges are exactly the candidates with
`start ≤ end` (degenerate ones discarded, no repair); and the planner output
is the coverage completion of those ranges. -/
theorem c4_thm (bms : List PBookmark) (total lvl : Int) :
    (sortByKey pageKey (validBookmarks bms lvl)).Pairwise
        (fun a b => pageKey a ≤ pageKey b) ∧
    (∀ k : Int,
        (sortByKey pageKey (validBookmarks bms lvl)).filter (fun b => pageKey b == k) =
          (validBookmarks bms lvl).filter (fun b => pageKey b == k)) ∧
    (sortByKey pageKey (validBookmarks bms lvl)).Perm (validBookmarks bms lvl) ∧
    (∀ l : List PBookmark,
        mkRanges total l =
          (specCandidates total l).filter (fun r => decide (r.start ≤ r.stop))) ∧
    ((bms.filter (fun b => b.level == lvl)).isEmpty = false →
      (validBookmarks bms lvl).isEmpty = false →
      (get_page_ranges bms total lvl).1 =
        addCover total (mkRanges total (sortByKey pageKey (validBookmarks bms lvl)))) := by
  refine ⟨sortByKey_pairwise _ _, fun k => sortByKey_filter _ _ _, sortByKey_perm _ _, ?_, ?_⟩
  · intro l
    induction l with
    | nil => rfl
    | cons b rest ih =>
      cases rest with
      | nil =>
        simp only [mkRanges, specCandidates]
        rw [List.filter_cons]
        by_cases hc : pageKey b - 1 ≤ total - 1 <;> simp [hc]
      | cons b2 rest2 =>
        simp only [mkRanges, specCandidates] at ih ⊢
        rw [List.filter_cons, ih]
        by_cases hc : pageKey b - 1 ≤ pageKey b2 - 2 <;> simp [hc]
  · intro h1 h2
    unfold get_page_ranges
    rw [if_neg (by simp [h1]), if_neg (by simp [h2])]

/-- Witness for C4's branch characterisation at a concrete input. -/
theorem c4_witness :
    ((([⟨"A".data, .pyInt 5, 0⟩] : List PBookmark).filter
        (fun b => b.level == 0)).isEmpty = false ∧
      (validBookmarks [⟨"A".data, .pyInt 5, 0⟩] 0).isEmpty = false) ∧
    (get_page_ranges [⟨"A".data, .pyInt 5, 0⟩] 10 0).1 =
      addCover 10 (mkRanges 10 (sortByKey pageKey
        (validBookmarks [⟨"A".data, .pyInt 5, 0⟩] 0))) :=
  ⟨⟨by decide, by decide⟩, (c4_thm [⟨"A".data, .pyInt 5, 0⟩] 10 0).2.2.2.2
    (by decide) (by decide)⟩

/-- Claim C9 counterexample: the planner does not leave the input unchanged
in general — a target-level bookmark whose page is the string "7" has its
page slot overwritten with the integer 7 through the aliased dicts. -/
theorem c9_counterexample :
    (get_page_ranges [⟨"A".data, .pyStr "7".data, 0⟩] 10 0).2 ≠
      [⟨"A".data, .pyStr "7".data, 0⟩] := by decide

/-- Claim C9 (amended): the inferencer returns a new sequence that preserves
titles and pages; the planner overwrites the page slots of target-level
bookmarks with the converted value, so the caller observes the input
unchanged when (and only because) every page already holds an integer or
`None`. -/
theorem c9_thm (bms : List PBookmark) (total lvl : Int)
    (h : ∀ b ∈ bms, intOrNone b.page = true) :
    (get_page_ranges bms total lvl).2 = bms ∧
    (∀ bs : List Bookmark,
        (infer_bookmark_level bs).map (fun b => (b.title, b.page)) =
          bs.map (fun b => (b.title, b.page))) := by
  constructor
  · have hpost : postState bms lvl = bms := by
      unfold postState
      apply map_id_of_mem
      intro b hb
      have hio := h b hb
      have hconv : convStep b = b := by
        obtain ⟨t, pg, lv⟩ := b
        cases pg with
        | pyInt n => simp [convStep, convert_to_page_number]
        | pyNone => simp [convStep, convert_to_page_number]
        | pyStr s => simp [intOrNone] at hio
      show (if (b.level == lvl : Bool) then convStep b else b) = b
      split
      · exact hconv
      · rfl
    unfold get_page_ranges
    split
    · rfl
    · split
      · exact hpost
      · exact hpost
  · intro bs
    simpa using inferAux_map bs []

/-- Witness for C9 at an int-paged input. -/
theorem c9_witness :
    (∀ b ∈ ([⟨"A".data, .pyInt 5, 0⟩] : List PBookmark), intOrNone b.page = true) ∧
    (get_page_ranges [⟨"A".data, .pyInt 5, 0⟩] 10 0).2 = [⟨"A".data, .pyInt 5, 0⟩] :=
  ⟨by decide, (c9_thm [⟨"A".data, .pyInt 5, 0⟩] 10 0 (by decide)).1⟩

end Pdf
